import Mathlib

/- Shallow embedding of the rust-cgroup crate (src/lib.rs), together with the
   behaviour of the parts of the old (pre-1.0) Rust standard library that the
   crate exercises: the posix `Path` type (normalization, `push`/`join`,
   `path_relative_from`), `str::lines` (= `split_terminator('\n')`),
   `str::split(':')`, the UTF-8 validation performed by `read_to_string`, and
   an abstract filesystem supplying `stat`, `readdir` and file reads.
   Byte strings are modelled as `List Nat`. -/

set_option autoImplicit false

namespace Cgroup

/-- A byte string (controller names, attribute names, file contents). -/
abbrev Bytes := List Nat

/-- The byte of the posix path separator `/`. -/
def sepB : Nat := 47

/-- The byte of `:`, the procfs column delimiter. -/
def colonB : Nat := 58

/-- The byte of `\n`. -/
def nlB : Nat := 10

/-- The path component `.`. -/
def dotC : Bytes := [46]

/-- The path component `..`. -/
def dotdotC : Bytes := [46, 46]

/-- Split a byte string on a separator byte.  Like rust `str::split`, the
result always has at least one element, and the empty input yields `[[]]`. -/
def splitOnByte (sep : Nat) : Bytes → List Bytes
  | [] => [[]]
  | b :: rest =>
    match splitOnByte sep rest with
    | [] => [[]]
    | h :: t => if b = sep then [] :: h :: t else (b :: h) :: t

/-- Old rust `str::lines`, which is `split_terminator('\n')`: split on newline
and drop one final empty piece, so a single trailing newline contributes no
line while interior empty lines are kept. -/
def linesOf (bs : Bytes) : List Bytes :=
  let parts := splitOnByte nlB bs
  if parts.getLast? = some [] then parts.dropLast else parts

/-- A UTF-8 continuation byte (0x80 to 0xBF). -/
def contB (b : Nat) : Bool := decide (128 ≤ b ∧ b ≤ 191)

/-- Constraint on the byte following the lead byte of a multi-byte UTF-8
sequence (strict UTF-8: no overlong forms, no surrogates, max U+10FFFF),
as enforced by old rust `str::is_utf8`. -/
def utf8Second (b b1 : Nat) : Bool :=
  if b = 224 then decide (160 ≤ b1 ∧ b1 ≤ 191)
  else if b = 237 then decide (128 ≤ b1 ∧ b1 ≤ 159)
  else if b = 240 then decide (144 ≤ b1 ∧ b1 ≤ 191)
  else if b = 244 then decide (128 ≤ b1 ∧ b1 ≤ 143)
  else contB b1

/-- Fuel-indexed UTF-8 validity check; the fuel only needs to dominate the
number of decoded characters, and is instantiated with the byte length. -/
def utf8ValidN : Nat → Bytes → Bool
  | _, [] => true
  | 0, _ :: _ => false
  | n + 1, b :: rest =>
    if b < 128 then utf8ValidN n rest
    else if 194 ≤ b ∧ b ≤ 223 then
      match rest with
      | b1 :: r => utf8Second b b1 && utf8ValidN n r
      | [] => false
    else if 224 ≤ b ∧ b ≤ 239 then
      match rest with
      | b1 :: b2 :: r => utf8Second b b1 && contB b2 && utf8ValidN n r
      | _ => false
    else if 240 ≤ b ∧ b ≤ 244 then
      match rest with
      | b1 :: b2 :: b3 :: r => utf8Second b b1 && contB b2 && contB b3 && utf8ValidN n r
      | _ => false
    else false

/-- Validity of a byte string as UTF-8, as checked by old rust
`Reader::read_to_string` (which fails with an `IoError` otherwise). -/
def utf8Valid (bs : Bytes) : Bool := utf8ValidN bs.length bs

/-- One step of old-rust posix path normalization: empty and `.` components
vanish, `..` pops a preceding normal component, is dropped at the root of an
absolute path, and accumulates at the front of a relative path.  `acc` holds
the output built in reverse. -/
def normStep (isAbs : Bool) (acc : List Bytes) (c : Bytes) : List Bytes :=
  if c = [] ∨ c = dotC then acc
  else if c = dotdotC then
    match acc with
    | [] => if isAbs then [] else [dotdotC]
    | a :: rest => if a = dotdotC then dotdotC :: a :: rest else rest
  else c :: acc

/-- Normalize raw path components, continuing from the already-normalized
components `init` (rust re-normalizes the whole concatenated repr; on
normalized input the fold simply continues from it). -/
def normComps (isAbs : Bool) (init : List Bytes) (raw : List Bytes) : List Bytes :=
  (raw.foldl (normStep isAbs) init.reverse).reverse

/-- Old-rust posix `Path`: an absoluteness flag plus normalized components.
The byte repr is the `/`-joined components; `⟨true, []⟩` is `/` and
`⟨false, []⟩` is `.`. -/
structure Path where
  abs : Bool
  comps : List Bytes
deriving DecidableEq

/-- `Path::new`: absolute iff the bytes start with `/`; the components are
the normalization of the `/`-separated pieces.  (rust additionally asserts
that the bytes contain no NUL; call sites model that assert explicitly.) -/
def Path.new (bs : Bytes) : Path :=
  if bs.head? = some sepB then Path.mk true (normComps true [] (splitOnByte sepB bs))
  else Path.mk false (normComps false [] (splitOnByte sepB bs))

/-- Join components with `/`. -/
def joinComps : List Bytes → Bytes
  | [] => []
  | [c] => c
  | c :: rest => c ++ sepB :: joinComps rest

/-- The byte repr of a path (`/` for the absolute root, `.` for the empty
relative path). -/
def Path.repr (p : Path) : Bytes :=
  if p.abs then sepB :: joinComps p.comps
  else if p.comps = [] then dotC
  else joinComps p.comps

/-- `Path::push`: pushing an absolute byte string replaces the path, pushing
the empty string is a no-op; otherwise the bytes are appended after a
separator and the whole repr re-normalized, which on a normalized path is
continuing the normalization fold from its components. -/
def Path.push (p : Path) (bs : Bytes) : Path :=
  if bs = [] then p
  else if bs.head? = some sepB then Path.new bs
  else Path.mk p.abs (normComps p.abs p.comps (splitOnByte sepB bs))

/-- `Path::join`: clone then push. -/
def Path.join (p : Path) (bs : Bytes) : Path := p.push bs

/-- `Path::components`: the components of the repr after stripping a leading
separator; the relative empty path (repr `.`) contributes a literal `.`. -/
def Path.components (p : Path) : List Bytes :=
  if p.abs then p.comps
  else if p.comps = [] then [dotC]
  else p.comps

/-- The component loop of old-rust `Path::path_relative_from`: skip the
common prefix; if the base runs out, the rest of `self` remains; if `self`
runs out, one `..` per remaining base component; on the first mismatch, one
`..` for the mismatching and each remaining base component followed by the
rest of `self`, unless the base component is `..`, which is a failure. -/
def relFromLoop : List Bytes → List Bytes → Option (List Bytes)
  | a, [] => some a
  | [], _ :: bs => (relFromLoop [] bs).map (fun cs => dotdotC :: cs)
  | x :: xs, y :: ys =>
    if x = y then relFromLoop xs ys
    else if y = dotdotC then Option.none
    else some (dotdotC :: (ys.map (fun _ => dotdotC) ++ x :: xs))

/-- `Path::path_relative_from`: mixed absoluteness short-circuits; otherwise
run the component loop and re-parse the joined result as a relative path. -/
def Path.path_relative_from (p base : Path) : Option Path :=
  if p.abs = base.abs then
    (relFromLoop p.components base.components).map
      (fun cs => Path.mk false (normComps false [] cs))
  else if p.abs then some p
  else Option.none

/-- Outcome of `get_controllers`: an io error (unreadable file or invalid
UTF-8) or a task panic (a failing `.expect` or a failing `Path::new`
assert). -/
inductive PErr where
  | ioError
  | panicked
deriving DecidableEq

/-- `HashMap::insert` modelled on an association list: the new binding is
prepended and `lookupA` returns the most recent one, so later insertions of
the same key overwrite earlier ones observationally. -/
def mapInsert (k : Bytes) (v : Path) (m : List (Bytes × Path)) : List (Bytes × Path) :=
  (k, v) :: m

/-- `HashMap::find_equiv`: the most recently inserted binding of `k`. -/
def lookupA (k : Bytes) : List (Bytes × Path) → Option Path
  | [] => Option.none
  | (k', v) :: rest => if k' = k then some v else lookupA k rest

/-- `HashMap::contains_key_equiv`. -/
def containsA (k : Bytes) (m : List (Bytes × Path)) : Bool :=
  (lookupA k m).isSome

/-- The line loop of `get_controllers`.  Each line is split on every `:`;
the first column is discarded (the dead `None => break` arm is kept as the
`[]` case), the second and third are taken by `.expect`, whose panics are
modelled as `.error .panicked`, as is the no-NUL assert of `Path::new` on
the path column.  Any text after a third colon is never looked at. -/
def parseLines : List Bytes → List (Bytes × Path) → Except PErr (List (Bytes × Path))
  | [], m => Except.ok m
  | line :: rest, m =>
    match splitOnByte colonB line with
    | [] => Except.ok m
    | [_] => Except.error PErr.panicked
    | [_, _] => Except.error PErr.panicked
    | _ :: name :: pathCol :: _ =>
      if pathCol.contains 0 then Except.error PErr.panicked
      else parseLines rest (mapInsert name (Path.new pathCol) m)

/-- `get_controllers`, with the read of `/proc/<pid>/cgroup` abstracted into
its outcome: a failed open/read surfaces as an io error, and
`read_to_string` additionally fails on bytes that are not valid UTF-8. -/
def get_controllers (readRes : Except Unit Bytes) : Except PErr (List (Bytes × Path)) :=
  match readRes with
  | Except.error _ => Except.error PErr.ioError
  | Except.ok bs =>
    if utf8Valid bs then parseLines (linesOf bs) [] else Except.error PErr.ioError

/-- The type a `stat` reports for a path: a regular file (with `some`
contents when a read of it succeeds, `none` when open/read fails, e.g. for
permission or kernel refusal) or a directory / other non-file entry. -/
inductive FKind where
  | file (contents : Option Bytes)
  | dir
deriving DecidableEq

/-- Abstract filesystem: `stat` gives the kind of each existing path
(`none` = the path does not exist) and `entries` gives the `readdir`
result (`none` = enumeration fails).  rust `readdir` yields
`dir.join(name)` for each directory entry name, with `.` and `..` filtered
out, so entries are modelled by their names (nonempty, separator-free and
NUL-free byte strings). -/
structure FS where
  stat : Path → Option FKind
  entries : Path → Option (List Bytes)

/-- `Path::exists`: the `stat` succeeds. -/
def pathExists (fs : FS) (p : Path) : Bool := (fs.stat p).isSome

/-- `Path::is_file`: the `stat` reports a regular file. -/
def isFile (fs : FS) (p : Path) : Bool :=
  match fs.stat p with
  | some (FKind.file _) => true
  | _ => false

/-- `File::open(p).read_to_string()`: succeeds exactly on a readable regular
file whose contents are valid UTF-8; opening a directory or a missing path,
a failing read, and non-UTF-8 contents all surface as the error case. -/
def readFile (fs : FS) (p : Path) : Except Unit Bytes :=
  match fs.stat p with
  | some (FKind.file (some cs)) => if utf8Valid cs then Except.ok cs else Except.error ()
  | _ => Except.error ()

/-- The entry loop of `path_cache`.  Note the `break`: the first entry that
is not a regular file stops the enumeration, so only the longest prefix of
regular-file entries is inserted. -/
def path_cache_go (fs : FS) (dir : Path) : List Bytes → List (Bytes × Path) → List (Bytes × Path)
  | [], m => m
  | n :: rest, m =>
    if isFile fs (dir.join n) then path_cache_go fs dir rest (mapInsert n (dir.join n) m)
    else m

/-- `path_cache`: enumerate the directory once and seed the cache;
enumeration failure propagates. -/
def path_cache (fs : FS) (dir : Path) : Option (List (Bytes × Path)) :=
  (fs.entries dir).map (fun es => path_cache_go fs dir es [])

/-- `Controller`: the resolved directory and the attribute-path cache
(`RefCell<HashMap<Vec<u8>, Path>>`). -/
structure Controller where
  path : Path
  cache : List (Bytes × Path)
deriving DecidableEq

/-- The path `get` consults for `key`: the cached path if present, else the
directory joined with the key (which is what the optimistic insert stores). -/
def Controller.keyPath (c : Controller) (k : Bytes) : Path :=
  match lookupA k c.cache with
  | some p => p
  | Option.none => c.path.join k

/-- `Controller::get`.  The first component is rust's
`Option<IoResult<String>>`: `none` is absence, `some` wraps the read result.
The second component is the controller with its (interior-mutable) cache
after the call.  The domain excludes NUL-containing keys, on which rust's
`Path::join` inside the optimistic insert would panic. -/
def Controller.get (c : Controller) (k : Bytes) (fs : FS) :
    Option (Except Unit Bytes) × Controller :=
  let c' : Controller :=
    if containsA k c.cache then c
    else Controller.mk c.path (mapInsert k (c.path.join k) c.cache)
  let p := c'.keyPath k
  if pathExists fs p = false ∧ isFile fs p = false then (Option.none, c')
  else (some (readFile fs p), c')

/-- The result of the `n`-th repeated `get` of the same key on the same
view (`0` is the first call), threading the cache through the calls. -/
def Controller.getN (c : Controller) (k : Bytes) (fs : FS) :
    Nat → Option (Except Unit Bytes) × Controller
  | 0 => c.get k fs
  | n + 1 => ((c.getN k fs n).2).get k fs

/-- `CGroup`: the basepath and the controller placement map. -/
structure CGroup where
  basepath : Path
  controllers : List (Bytes × Path)
deriving DecidableEq

/-- `CGroup::from_base_and_pid`, with the procfs read abstracted into its
outcome.  The basepath is stored untouched and never inspected. -/
def CGroup.from_base_and_pid (base : Path) (readRes : Except Unit Bytes) : Except PErr CGroup :=
  match get_controllers readRes with
  | Except.error e => Except.error e
  | Except.ok m => Except.ok (CGroup.mk base m)

/-- Outcome of `CGroup::controller`: rust's `Option<Controller>` plus a task
panic (the `.expect` on `path_relative_from`, or the NUL assert in
`Path::join`). -/
inductive CtrlRes where
  | panicked
  | absent
  | view (c : Controller)
deriving DecidableEq

/-- `CGroup::controller`: join the name under the basepath, look the name up
in the placement map, re-express the stored placement relative to `/`
(`.expect`-panicking when it is not absolute), push it, and seed the cache;
a missing map entry or a failed enumeration is absence. -/
def CGroup.controller (cg : CGroup) (name : Bytes) (fs : FS) : CtrlRes :=
  if name.contains 0 then CtrlRes.panicked
  else
    let p := cg.basepath.join name
    match lookupA name cg.controllers with
    | Option.none => CtrlRes.absent
    | some c =>
      match c.path_relative_from (Path.new [sepB]) with
      | Option.none => CtrlRes.panicked
      | some rel =>
        let p' := p.push rel.repr
        match path_cache fs p' with
        | Option.none => CtrlRes.absent
        | some cache => CtrlRes.view (Controller.mk p' cache)

/-- Spec-side seeding (no `break`): insert every named entry.  Used to state
what the observed seeding does to the prefix it reaches. -/
def seedAll (dir : Path) (names : List Bytes) : List (Bytes × Path) :=
  names.foldl (fun m n => mapInsert n (dir.join n) m) []

/-- A normalized path component: nonempty and neither `.` nor `..`. -/
def cleanComp (c : Bytes) : Bool := !(c == []) && !(c == dotC) && !(c == dotdotC)

/- Concrete fixtures used by counterexamples and witnesses. -/

/-- A filesystem where nothing exists and nothing can be enumerated. -/
def fsEmpty : FS := FS.mk (fun _ => Option.none) (fun _ => Option.none)

/-- A filesystem where nothing exists but every enumeration succeeds with an
empty listing. -/
def fsEnumOk : FS := FS.mk (fun _ => Option.none) (fun _ => some [])

/-- The directory `/d`. -/
def dirD : Path := Path.new [47, 100]

/-- A filesystem where `/d/k` exists as a directory. -/
def fsDirAtK : FS :=
  FS.mk (fun p => if p = dirD.join [107] then some FKind.dir else Option.none)
        (fun _ => Option.none)

/-- A filesystem where `/d` lists `b` (a directory) before `a` (a regular
file). -/
def fsBreak : FS :=
  FS.mk (fun p => if p = dirD.join [98] then some FKind.dir
                  else if p = dirD.join [97] then some (FKind.file (some [49]))
                  else Option.none)
        (fun p => if p = dirD then some [[98], [97]] else Option.none)

/-- A filesystem where `/d` lists `a` (file), then `b` (directory), then `c`
(file). -/
def fsSeed : FS :=
  FS.mk (fun p => if p = dirD.join [98] then some FKind.dir
                  else if p = dirD.join [97] ∨ p = dirD.join [99] then some (FKind.file (some [49]))
                  else Option.none)
        (fun p => if p = dirD then some [[97], [98], [99]] else Option.none)

/-- The procfs line `7:devices:/a:b/c`. -/
def lineColon : Bytes := [55, 58, 100, 101, 118, 105, 99, 101, 115, 58, 47, 97, 58, 98, 47, 99]

/-- The bytes of `devices`. -/
def devicesB : Bytes := [100, 101, 118, 105, 99, 101, 115]

/-- The procfs line `3:cpu,cpuacct:/`. -/
def lineComma : Bytes := [51, 58, 99, 112, 117, 44, 99, 112, 117, 97, 99, 99, 116, 58, 47]

/-- The bytes of `cpu`. -/
def cpuB : Bytes := [99, 112, 117]

/-- The bytes of `cpuacct`. -/
def cpuacctB : Bytes := [99, 112, 117, 97, 99, 99, 116]

/-- The procfs contents `1:cpu:/\nbad`: a well-formed line followed by a
line with a single column. -/
def lineThenBad : Bytes := [49, 58, 99, 112, 117, 58, 47, 10, 98, 97, 100]

/-- The procfs line `1:x:` (empty path column, parsed to the relative path
`.`). -/
def lineEmptyPath : Bytes := [49, 58, 120, 58]

/-- The procfs line `1:cpu:/`. -/
def lineCpu : Bytes := [49, 58, 99, 112, 117, 58, 47]

/-- The procfs contents `1:` followed by the byte 0xFF followed by `:/` —
a line whose controller name column is not valid UTF-8. -/
def lineNonUtf8 : Bytes := [49, 58, 255, 58, 47]

/-- The basepath `/b` used by the composition witness. -/
def baseB : Path := Path.new [47, 98]

/- Helper lemmas. -/

theorem splitOnByte_ne_nil (sep : Nat) (bs : Bytes) : splitOnByte sep bs ≠ [] := by
  cases bs with
  | nil => simp [splitOnByte]
  | cons b rest =>
    unfold splitOnByte
    rcases splitOnByte sep rest with _ | ⟨h, t⟩
    · simp
    · dsimp only
      split <;> simp

theorem splitOnByte_no_sep (sep : Nat) (bs : Bytes) (h : sep ∉ bs) :
    splitOnByte sep bs = [bs] := by
  induction bs with
  | nil => rfl
  | cons b rest ih =>
    have hb : b ≠ sep := fun e => h (e ▸ List.mem_cons_self b rest)
    have hr : sep ∉ rest := fun e => h (List.mem_cons_of_mem _ e)
    unfold splitOnByte
    rw [ih hr]
    simp [hb]

theorem linesOf_single (bs : Bytes) (hnl : nlB ∉ bs) (hne : bs ≠ []) :
    linesOf bs = [bs] := by
  unfold linesOf
  rw [splitOnByte_no_sep _ _ hnl]
  simp [hne]

/-- Parsing a single well-formed line: the second full-split column is the
key, the third is the value, and everything after a third colon (held in
`rest`) is dropped. -/
theorem parse_single (line c0 c1 c2 : Bytes) (rest : List Bytes)
    (hnl : nlB ∉ line) (hutf : utf8Valid line = true)
    (hs : splitOnByte colonB line = c0 :: c1 :: c2 :: rest)
    (hnul : c2.contains 0 = false) :
    get_controllers (Except.ok line) = Except.ok [(c1, Path.new c2)] := by
  have hne : line ≠ [] := by
    intro e
    rw [e] at hs
    simp [splitOnByte] at hs
  unfold get_controllers
  dsimp only
  rw [hutf, if_pos rfl, linesOf_single line hnl hne]
  unfold parseLines
  rw [hs]
  have hnul' : (0 : Nat) ∉ c2 := by simpa using hnul
  simp [hnul', parseLines, mapInsert]

theorem parseLines_bad : ∀ (ls : List Bytes) (m : List (Bytes × Path)),
    (∃ l, l ∈ ls ∧ (splitOnByte colonB l).length < 3) →
    parseLines ls m = Except.error PErr.panicked := by
  intro ls
  induction ls with
  | nil =>
    rintro m ⟨l, hl, -⟩
    exact absurd hl (List.not_mem_nil l)
  | cons line rest ih =>
    rintro m ⟨l, hl, hlen⟩
    unfold parseLines
    rcases hsp : splitOnByte colonB line with _ | ⟨a, _ | ⟨b, _ | ⟨c, t3⟩⟩⟩
    · exact absurd hsp (splitOnByte_ne_nil _ _)
    · rfl
    · rfl
    · have hrest : ∃ l, l ∈ rest ∧ (splitOnByte colonB l).length < 3 := by
        rcases List.mem_cons.mp hl with h | h
        · rw [h, hsp] at hlen
          simp at hlen
          omega
        · exact ⟨l, h, hlen⟩
      dsimp only
      split
      · rfl
      · exact ih _ hrest

/- C1. -/

/-- C1 (corrected): parsing the line `7:devices:/a:b/c` maps `devices` to
the path `/a`, not to `/a:b/c` — the resolver splits on every colon and
keeps only the third field. -/
theorem C1_cex :
    get_controllers (Except.ok lineColon) = Except.ok [(devicesB, Path.mk true [[97]])] ∧
    Path.mk true [[97]] ≠ Path.new [47, 97, 58, 98, 47, 99] :=
  ⟨rfl, by decide⟩

/-- C1 (amended): the resolver splits each line on every colon; for any line
with at least three columns the placement entry maps the second column to
the third column only, and any text after a third colon is dropped. -/
theorem C1_thm (line c0 c1 c2 : Bytes) (rest : List Bytes)
    (hnl : nlB ∉ line) (hutf : utf8Valid line = true)
    (hs : splitOnByte colonB line = c0 :: c1 :: c2 :: rest)
    (hnul : c2.contains 0 = false) :
    get_controllers (Except.ok line) = Except.ok [(c1, Path.new c2)] :=
  parse_single line c0 c1 c2 rest hnl hutf hs hnul

/-- Witness for C1 at the line `7:devices:/a:b/c`. -/
theorem C1_wit :
    nlB ∉ lineColon ∧ utf8Valid lineColon = true ∧
    splitOnByte colonB lineColon = [[55], devicesB, [47, 97], [98, 47, 99]] ∧
    get_controllers (Except.ok lineColon) = Except.ok [(devicesB, Path.new [47, 97])] :=
  ⟨by decide, by decide, by decide,
   C1_thm lineColon [55] devicesB [47, 97] [[98, 47, 99]]
     (by decide) (by decide) (by decide) (by decide)⟩

/- C2. -/

/-- C2 (corrected): parsing `3:cpu,cpuacct:/` yields a single entry keyed by
the whole column `cpu,cpuacct`; neither `cpu` nor `cpuacct` is in the map,
and `controller` on either name returns absence, not a view. -/
theorem C2_cex :
    get_controllers (Except.ok lineComma)
      = Except.ok [(cpuB ++ 44 :: cpuacctB, Path.mk true [])] ∧
    lookupA cpuB [(cpuB ++ 44 :: cpuacctB, Path.mk true [])] = Option.none ∧
    (CGroup.mk baseB [(cpuB ++ 44 :: cpuacctB, Path.mk true [])]).controller cpuB fsEnumOk
      = CtrlRes.absent ∧
    (CGroup.mk baseB [(cpuB ++ 44 :: cpuacctB, Path.mk true [])]).controller cpuacctB fsEnumOk
      = CtrlRes.absent :=
  ⟨rfl, by decide, rfl, rfl⟩

/-- C2 (amended): a line whose controller column contains a comma produces
one entry keyed by the entire column, commas included; the individual
comma-separated names are not keys of the resulting map. -/
theorem C2_thm (line c0 n1 n2 c2 : Bytes) (rest : List Bytes)
    (hnl : nlB ∉ line) (hutf : utf8Valid line = true)
    (hs : splitOnByte colonB line = c0 :: (n1 ++ 44 :: n2) :: c2 :: rest)
    (hnul : c2.contains 0 = false) :
    get_controllers (Except.ok line) = Except.ok [(n1 ++ 44 :: n2, Path.new c2)] ∧
    lookupA n1 [(n1 ++ 44 :: n2, Path.new c2)] = Option.none ∧
    lookupA n2 [(n1 ++ 44 :: n2, Path.new c2)] = Option.none := by
  refine ⟨parse_single line c0 _ c2 rest hnl hutf hs hnul, ?_, ?_⟩
  · have hne : n1 ++ 44 :: n2 ≠ n1 := by
      intro e
      have := congrArg List.length e
      simp at this
    simp [lookupA, hne]
  · have hne : n1 ++ 44 :: n2 ≠ n2 := by
      intro e
      have := congrArg List.length e
      simp at this
      omega
    simp [lookupA, hne]

/-- Witness for C2 at the line `3:cpu,cpuacct:/`. -/
theorem C2_wit :
    splitOnByte colonB lineComma = [[51], cpuB ++ 44 :: cpuacctB, [47]] ∧
    (get_controllers (Except.ok lineComma)
        = Except.ok [(cpuB ++ 44 :: cpuacctB, Path.new [47])] ∧
      lookupA cpuB [(cpuB ++ 44 :: cpuacctB, Path.new [47])] = Option.none ∧
      lookupA cpuacctB [(cpuB ++ 44 :: cpuacctB, Path.new [47])] = Option.none) :=
  ⟨by decide,
   C2_thm lineComma [51] cpuB cpuacctB [47] [] (by decide) (by decide) (by decide) (by decide)⟩

/- C6. -/

/-- C6 (corrected): input holding a well-formed line followed by the
malformed line `bad` makes `get_controllers` fail with a panic instead of
skipping the malformed line and returning the map of the well-formed one. -/
theorem C6_cex :
    get_controllers (Except.ok lineThenBad) = Except.error PErr.panicked :=
  rfl

/-- C6 (amended): empty contents parse to the empty map (and a single
trailing newline is dropped by the line split), but any line with fewer
than three colon-separated columns — interior empty lines included — makes
the resolver panic rather than skip the line. -/
theorem C6_thm :
    get_controllers (Except.ok ([] : Bytes)) = Except.ok [] ∧
    ∀ bs : Bytes, utf8Valid bs = true →
      (∃ l, l ∈ linesOf bs ∧ (splitOnByte colonB l).length < 3) →
      get_controllers (Except.ok bs) = Except.error PErr.panicked := by
  refine ⟨rfl, ?_⟩
  intro bs hutf hex
  unfold get_controllers
  dsimp only
  rw [hutf, if_pos rfl]
  exact parseLines_bad _ _ hex

/-- Witness for C6 at the single malformed line `ab`. -/
theorem C6_wit :
    utf8Valid [97, 98] = true ∧
    get_controllers (Except.ok [97, 98]) = Except.error PErr.panicked :=
  ⟨by decide, C6_thm.2 [97, 98] (by decide) ⟨[97, 98], by decide, by decide⟩⟩

/- C8. -/

/-- C8 (corrected): a line whose controller-name column holds the non-UTF-8
byte 0xFF does not flow through construction — `get_controllers` fails with
a read error instead of producing a map. -/
theorem C8_cex :
    get_controllers (Except.ok lineNonUtf8) = Except.error PErr.ioError :=
  rfl

/-- C8 (amended): names are byte-exact downstream of parsing, but the
resolver decodes `/proc/<pid>/cgroup` as UTF-8 text: on any contents that
are not valid UTF-8, construction fails with a read error rather than
accepting the bytes. -/
theorem C8_thm (bs : Bytes) (h : utf8Valid bs = false) :
    get_controllers (Except.ok bs) = Except.error PErr.ioError := by
  unfold get_controllers
  dsimp only
  rw [h]
  rfl

/-- Witness for C8 at the lone byte 0xFF. -/
theorem C8_wit :
    utf8Valid [255] = false ∧
    get_controllers (Except.ok [255]) = Except.error PErr.ioError :=
  ⟨by decide, C8_thm [255] (by decide)⟩

/- C3. -/

theorem keyPath_stable (c : Controller) (k : Bytes) :
    (if containsA k c.cache then c
     else Controller.mk c.path (mapInsert k (c.path.join k) c.cache)).keyPath k
      = c.keyPath k := by
  unfold containsA Controller.keyPath mapInsert
  cases h : lookupA k c.cache with
  | none => simp [h, lookupA]
  | some p => simp [h]

/-- C3 (corrected): a path that exists but is not a regular file (for
example a directory) makes `get` attempt the read and return a wrapped
failure — not the absence the claim requires for any non-regular-file. -/
theorem C3_cex :
    ((Controller.mk dirD []).get [107] fsDirAtK).1 = some (Except.error ()) ∧
    isFile fsDirAtK (dirD.join [107]) = false ∧
    pathExists fsDirAtK (dirD.join [107]) = true :=
  ⟨rfl, rfl, rfl⟩

/-- C3 (amended): `get` returns absence exactly when the consulted path
does not exist at all (the probe `!exists && !is_file` collapses to
`!exists`); whenever the path exists — regular file or not — `get` returns
the wrapped outcome of the read. -/
theorem C3_thm (c : Controller) (k : Bytes) (fs : FS) (_hk : (0 : Nat) ∉ k) :
    ((c.get k fs).1 = Option.none ↔ fs.stat (c.keyPath k) = Option.none) ∧
    (∀ fk, fs.stat (c.keyPath k) = some fk →
      (c.get k fs).1 = some (readFile fs (c.keyPath k))) := by
  have hkp := keyPath_stable c k
  simp only [Controller.get]
  rw [hkp]
  constructor
  · cases hst : fs.stat (c.keyPath k) with
    | none => simp [pathExists, isFile, hst]
    | some fk => cases fk <;> simp [pathExists, isFile, hst]
  · intro fk hst
    cases fk <;> simp [pathExists, isFile, hst]

/-- Witness for C3 on a view over `/d` probing the key `k` where `/d/k` is
a directory. -/
theorem C3_wit :
    ((((Controller.mk dirD []).get [107] fsDirAtK).1 = Option.none) ↔
      fsDirAtK.stat ((Controller.mk dirD []).keyPath [107]) = Option.none) ∧
    ((Controller.mk dirD []).get [107] fsDirAtK).1
      = some (readFile fsDirAtK ((Controller.mk dirD []).keyPath [107])) :=
  ⟨(C3_thm (Controller.mk dirD []) [107] fsDirAtK (by decide)).1,
   (C3_thm (Controller.mk dirD []) [107] fsDirAtK (by decide)).2 FKind.dir rfl⟩

/- C5. -/

theorem path_cache_go_takeWhile (fs : FS) (d : Path) :
    ∀ (es : List Bytes) (m : List (Bytes × Path)),
      path_cache_go fs d es m =
        (es.takeWhile (fun n => isFile fs (d.join n))).foldl
          (fun m n => mapInsert n (d.join n) m) m := by
  intro es
  induction es with
  | nil => intro m; rfl
  | cons n rest ih =>
    intro m
    unfold path_cache_go
    cases h : isFile fs (d.join n) with
    | false => simp [List.takeWhile_cons, h]
    | true => simp [List.takeWhile_cons, h, ih]

/-- C5 (corrected): with the listing `[b, a]` where `b` is a directory and
`a` a regular file, the seeded cache is empty — the enumeration stops at
the first non-file entry, so the regular file `a` listed after it is not
seeded. -/
theorem C5_cex :
    fsBreak.entries dirD = some [[98], [97]] ∧
    isFile fsBreak (dirD.join [97]) = true ∧
    path_cache fsBreak dirD = some [] :=
  ⟨rfl, rfl, rfl⟩

/-- C5 (amended): the single enumeration seeds an entry
`(name → directory.join name)` for exactly the longest prefix of the
listing consisting of regular files; the first non-file entry stops the
loop (rust `break`, not a skip), leaving all later entries unseeded. -/
theorem C5_thm (fs : FS) (d : Path) (es : List Bytes) (h : fs.entries d = some es) :
    path_cache fs d = some (seedAll d (es.takeWhile (fun n => isFile fs (d.join n)))) := by
  unfold path_cache seedAll
  rw [h]
  simp [path_cache_go_takeWhile]

/-- Witness for C5 at the listing `[a (file), b (dir), c (file)]`: only `a`
is seeded. -/
theorem C5_wit :
    path_cache fsSeed dirD = some [([97], Path.mk true [[100], [97]])] := by
  rw [C5_thm fsSeed dirD [[97], [98], [99]] rfl]
  rfl

/- C7. -/

/-- Characterization of `get`: the result is computed at the stable key
path, and the returned controller is the input with at most the optimistic
insert applied. -/
theorem get_eq (c : Controller) (k : Bytes) (fs : FS) :
    c.get k fs =
      (if pathExists fs (c.keyPath k) = false ∧ isFile fs (c.keyPath k) = false
        then Option.none else some (readFile fs (c.keyPath k)),
       if containsA k c.cache then c
        else Controller.mk c.path (mapInsert k (c.path.join k) c.cache)) := by
  simp only [Controller.get]
  rw [keyPath_stable]
  split <;> rfl

/-- C7 (confirmed): after any `get k`, the cache contains `k`; no cached
binding is ever removed or replaced; `get` never consults the directory
enumeration (its result is invariant under arbitrary changes to `entries`);
and a second `get` of the same key returns the same result with the cache
unchanged.  The domain excludes NUL-containing keys, on which rust's
`Path::join` in the optimistic insert would panic. -/
theorem C7_thm (c : Controller) (k : Bytes) (fs : FS) (_hk : (0 : Nat) ∉ k) :
    containsA k ((c.get k fs).2).cache = true ∧
    (∀ k' p, lookupA k' c.cache = some p → lookupA k' ((c.get k fs).2).cache = some p) ∧
    (∀ ents, c.get k (FS.mk fs.stat ents) = c.get k fs) ∧
    ((c.get k fs).2).get k fs = c.get k fs := by
  refine ⟨?_, ?_, fun ents => rfl, ?_⟩
  · rw [get_eq]
    cases h : containsA k c.cache with
    | true => simp [h]
    | false => simp [h, containsA, mapInsert, lookupA]
  · intro k' p hp
    rw [get_eq]
    cases h : containsA k c.cache with
    | true => simpa [h]
    | false =>
      have hkk : k ≠ k' := by
        intro e
        rw [containsA, e, hp] at h
        simp at h
      simp [h, mapInsert, lookupA, hkk, hp]
  · cases h : containsA k c.cache with
    | true =>
      have h2 : (c.get k fs).2 = c := by
        rw [get_eq]
        simp [h]
      rw [h2]
    | false =>
      have h2 : (c.get k fs).2
          = Controller.mk c.path (mapInsert k (c.path.join k) c.cache) := by
        rw [get_eq]
        simp [h]
      have hkpi : (Controller.mk c.path (mapInsert k (c.path.join k) c.cache)).keyPath k
          = c.keyPath k := by
        have hst := keyPath_stable c k
        simp only [h, Bool.false_eq_true, if_false] at hst
        exact hst
      have hci : containsA k (Controller.mk c.path (mapInsert k (c.path.join k) c.cache)).cache
          = true := by
        simp [containsA, mapInsert, lookupA]
      rw [h2, get_eq, get_eq c k fs]
      simp [hkpi, hci, h]

/-- Witness for C7 on a view over `/d` with `a` cached, getting key `k` on
the empty filesystem. -/
theorem C7_wit :
    containsA [107] (((Controller.mk dirD [([97], dirD.join [97])]).get [107] fsEmpty).2).cache
      = true ∧
    lookupA [97] (((Controller.mk dirD [([97], dirD.join [97])]).get [107] fsEmpty).2).cache
      = some (dirD.join [97]) ∧
    (Controller.mk dirD [([97], dirD.join [97])]).get [107] (FS.mk fsEmpty.stat (fun _ => some []))
      = (Controller.mk dirD [([97], dirD.join [97])]).get [107] fsEmpty ∧
    (((Controller.mk dirD [([97], dirD.join [97])]).get [107] fsEmpty).2).get [107] fsEmpty
      = (Controller.mk dirD [([97], dirD.join [97])]).get [107] fsEmpty :=
  ⟨(C7_thm (Controller.mk dirD [([97], dirD.join [97])]) [107] fsEmpty (by decide)).1,
   (C7_thm (Controller.mk dirD [([97], dirD.join [97])]) [107] fsEmpty (by decide)).2.1
     [97] (dirD.join [97]) rfl,
   (C7_thm (Controller.mk dirD [([97], dirD.join [97])]) [107] fsEmpty (by decide)).2.2.1
     (fun _ => some []),
   (C7_thm (Controller.mk dirD [([97], dirD.join [97])]) [107] fsEmpty (by decide)).2.2.2⟩

/- C9. -/

theorem get_at_missing (c : Controller) (k : Bytes) (fs : FS)
    (hc : lookupA k c.cache = Option.none ∨ lookupA k c.cache = some (c.path.join k))
    (hs : fs.stat (c.path.join k) = Option.none) :
    ∃ cc, c.get k fs = (Option.none, cc) ∧ cc.path = c.path ∧
      lookupA k cc.cache = some (c.path.join k) := by
  rcases hc with h | h
  · refine ⟨Controller.mk c.path (mapInsert k (c.path.join k) c.cache), ?_, rfl, ?_⟩
    · simp [Controller.get, containsA, h, Controller.keyPath, mapInsert, lookupA,
        pathExists, isFile, hs]
    · simp [mapInsert, lookupA]
  · refine ⟨c, ?_, rfl, h⟩
    simp [Controller.get, containsA, h, Controller.keyPath, pathExists, isFile, hs]

theorem getN_aux (c : Controller) (k : Bytes) (fs : FS)
    (hc : lookupA k c.cache = Option.none ∨ lookupA k c.cache = some (c.path.join k))
    (hs : fs.stat (c.path.join k) = Option.none) :
    ∀ n, ∃ cc, c.getN k fs n = (Option.none, cc) ∧ cc.path = c.path ∧
      lookupA k cc.cache = some (c.path.join k) := by
  intro n
  induction n with
  | zero => exact get_at_missing c k fs hc hs
  | succ n ih =>
    obtain ⟨cc, h1, h2, h3⟩ := ih
    obtain ⟨cc2, g1, g2, g3⟩ :=
      get_at_missing cc k fs (Or.inr (by rw [h2]; exact h3)) (by rw [h2]; exact hs)
    refine ⟨cc2, ?_, by rw [g2, h2], by rw [h2] at g3; exact g3⟩
    show ((c.getN k fs n).2).get k fs = (Option.none, cc2)
    rw [h1]
    exact g1

/-- C9 (confirmed): if a view's cache is either empty at a key or already
holds its own `directory.join key` binding, and the file at that joined
path never exists, then every repeated `get` of the key — the first call
and all subsequent ones through the updated cache — returns absence; the
optimistic insert does not change later results. -/
theorem C9_thm (c : Controller) (k : Bytes) (fs : FS) (_hk : (0 : Nat) ∉ k)
    (hc : lookupA k c.cache = Option.none ∨ lookupA k c.cache = some (c.path.join k))
    (hs : fs.stat (c.path.join k) = Option.none) :
    ∀ n, (c.getN k fs n).1 = Option.none := by
  intro n
  obtain ⟨cc, h1, -, -⟩ := getN_aux c k fs hc hs n
  rw [h1]

/-- Witness for C9: a fresh view over `/d` on the empty filesystem, third
call included. -/
theorem C9_wit : ((Controller.mk dirD []).getN [107] fsEmpty 2).1 = Option.none :=
  C9_thm (Controller.mk dirD []) [107] fsEmpty (by decide) (Or.inl rfl) rfl 2

/- C4. -/

theorem foldl_normStep_clean (cs : List Bytes) :
    ∀ acc, cs.all cleanComp = true →
      cs.foldl (normStep false) acc = cs.reverse ++ acc := by
  induction cs with
  | nil => intro acc _; simp
  | cons c cs ih =>
    intro acc hall
    simp only [List.all_cons, Bool.and_eq_true] at hall
    have h1 : ¬(c = [] ∨ c = dotC) := by
      rcases hall.1 with h
      simp only [cleanComp, Bool.and_eq_true, Bool.not_eq_true', beq_eq_false_iff_ne] at h
      rintro (e | e) <;> [exact h.1.1 e; exact h.1.2 e]
    have h2 : c ≠ dotdotC := by
      have h := hall.1
      simp only [cleanComp, Bool.and_eq_true, Bool.not_eq_true', beq_eq_false_iff_ne] at h
      exact h.2
    have hstep : normStep false acc c = c :: acc := by
      unfold normStep
      rw [if_neg h1, if_neg h2]
    simp [List.foldl_cons, hstep, ih _ hall.2]

theorem normComps_clean (cs : List Bytes) (h : cs.all cleanComp = true) :
    normComps false [] cs = cs := by
  unfold normComps
  rw [List.reverse_nil, foldl_normStep_clean cs [] h]
  simp

/-- The composition step the crate relies on: re-expressing an absolute
path relative to `/` yields the same components marked relative, i.e. the
stored placement with its single leading separator stripped. -/
theorem relative_from_root (p : Path) (ha : p.abs = true)
    (hc : p.comps.all cleanComp = true) :
    p.path_relative_from (Path.new [sepB]) = some (Path.mk false p.comps) := by
  have hroot : Path.new [sepB] = Path.mk true [] := rfl
  rw [hroot]
  unfold Path.path_relative_from Path.components
  rw [ha]
  simp [relFromLoop, normComps_clean _ hc]

theorem push_dot (p : Path) : p.push dotC = p := by
  unfold Path.push
  rw [if_neg (by simp [dotC]), if_neg (by simp [dotC, sepB])]
  show Path.mk p.abs (normComps p.abs p.comps [dotC]) = p
  unfold normComps normStep
  simp [dotC]

/-- C4 (corrected): a placement path with no leading separator does not
flow through unchanged — `controller` panics on it.  The line `1:x:` stores
the relative path `.` for `x`, and `controller` on `x` then panics in the
`.expect` on `path_relative_from`. -/
theorem C4_cex :
    get_controllers (Except.ok lineEmptyPath) = Except.ok [([120], Path.mk false [])] ∧
    (CGroup.mk baseB [([120], Path.mk false [])]).controller [120] fsEnumOk
      = CtrlRes.panicked :=
  ⟨rfl, rfl⟩

/-- C4 (amended): for a stored placement path that is absolute (has the
leading separator), `controller` composes the view directory as the
basepath joined with the name, pushed with the placement re-expressed as a
relative path — its components unchanged, the leading separator stripped —
and when the placement is exactly `/` the directory is `basepath/name`;
it never panics there.  A placement without a leading separator instead
panics (see the counterexample). -/
theorem C4_thm (base : Path) (m : List (Bytes × Path)) (name : Bytes) (fs : FS) (pl : Path)
    (hn : name.contains 0 = false)
    (hl : lookupA name m = some pl)
    (ha : pl.abs = true)
    (hc : pl.comps.all cleanComp = true) :
    (CGroup.mk base m).controller name fs ≠ CtrlRes.panicked ∧
    (∀ v, (CGroup.mk base m).controller name fs = CtrlRes.view v →
      v.path = (base.join name).push (Path.repr (Path.mk false pl.comps))) ∧
    (pl.comps = [] → ∀ v, (CGroup.mk base m).controller name fs = CtrlRes.view v →
      v.path = base.join name) := by
  have hrel := relative_from_root pl ha hc
  have hn' : ¬(name.contains 0 = true) := by rw [hn]; exact Bool.false_ne_true
  unfold CGroup.controller
  rw [if_neg hn']
  dsimp only
  rw [hl]
  dsimp only
  rw [hrel]
  dsimp only
  cases hpc : path_cache fs ((base.join name).push (Path.repr (Path.mk false pl.comps))) with
  | none =>
    exact ⟨fun e => by simp at e, fun v hv => by simp at hv, fun _ v hv => by simp at hv⟩
  | some cache =>
    refine ⟨fun e => by simp at e, fun v hv => ?_, fun hcomps v hv => ?_⟩
    · have hveq := (CtrlRes.view.injEq _ _).mp hv.symm
      subst hveq
      rfl
    · have hveq := (CtrlRes.view.injEq _ _).mp hv.symm
      subst hveq
      show (base.join name).push (Path.repr (Path.mk false pl.comps)) = base.join name
      rw [hcomps]
      have hdot : Path.repr (Path.mk false []) = dotC := rfl
      rw [hdot, push_dot]

/-- Witness for C4: basepath `/b`, controller `x` placed at `/a`; the
composed view directory is `/b/x/a`. -/
theorem C4_wit :
    lookupA [120] [([120], Path.mk true [[97]])] = some (Path.mk true [[97]]) ∧
    (CGroup.mk baseB [([120], Path.mk true [[97]])]).controller [120] fsEnumOk
      ≠ CtrlRes.panicked ∧
    (Controller.mk (Path.mk true [[98], [120], [97]]) []).path
      = (baseB.join [120]).push (Path.repr (Path.mk false [[97]])) :=
  ⟨by decide,
   (C4_thm baseB [([120], Path.mk true [[97]])] [120] fsEnumOk (Path.mk true [[97]])
     (by decide) (by decide) rfl (by decide)).1,
   (C4_thm baseB [([120], Path.mk true [[97]])] [120] fsEnumOk (Path.mk true [[97]])
     (by decide) (by decide) rfl (by decide)).2.1
     (Controller.mk (Path.mk true [[98], [120], [97]]) []) rfl⟩

/- C10. -/

/-- C10 (confirmed): construction never inspects the basepath — for every
basepath, `from_base_and_pid` succeeds exactly when the procfs read and
parse succeed, storing the basepath untouched (the model's
`from_base_and_pid` does not even take a filesystem); and a bad basepath
only shows up later, as absence from `controller` when the composed
directory cannot be enumerated. -/
theorem C10_thm (base : Path) (rr : Except Unit Bytes) (m : List (Bytes × Path))
    (name : Bytes) (fs : FS) (pl : Path)
    (hok : get_controllers rr = Except.ok m)
    (hn : name.contains 0 = false)
    (hl : lookupA name m = some pl) (ha : pl.abs = true)
    (he : ∀ d, fs.entries d = Option.none) :
    CGroup.from_base_and_pid base rr = Except.ok (CGroup.mk base m) ∧
    (CGroup.mk base m).controller name fs = CtrlRes.absent := by
  constructor
  · unfold CGroup.from_base_and_pid
    rw [hok]
  · have hn' : ¬(name.contains 0 = true) := by rw [hn]; exact Bool.false_ne_true
    unfold CGroup.controller
    rw [if_neg hn']
    dsimp only
    rw [hl]
    dsimp only
    have hrel : pl.path_relative_from (Path.new [sepB])
        = some (Path.mk false (normComps false [] pl.comps)) := by
      have hroot : Path.new [sepB] = Path.mk true [] := rfl
      rw [hroot]
      unfold Path.path_relative_from Path.components
      rw [ha]
      simp [relFromLoop]
    rw [hrel]
    dsimp only
    unfold path_cache
    rw [he]
    rfl

/-- Witness for C10: basepath `/b` with procfs contents `1:cpu:/` and a
filesystem where no directory can be enumerated. -/
theorem C10_wit :
    CGroup.from_base_and_pid baseB (Except.ok lineCpu)
      = Except.ok (CGroup.mk baseB [(cpuB, Path.mk true [])]) ∧
    (CGroup.mk baseB [(cpuB, Path.mk true [])]).controller cpuB fsEmpty = CtrlRes.absent :=
  C10_thm baseB (Except.ok lineCpu) [(cpuB, Path.mk true [])] cpuB fsEmpty (Path.mk true [])
    rfl (by decide) (by decide) rfl (fun _ => rfl)

end Cgroup
